import Mathlib

/-
Verification of the MegaNorm scraping API (src/app.py).

The development shallowly embeds the core extraction pipeline:
text normalization (clean_text), document-type classification
(determine_document_type), document-number extraction
(extract_document_number with its ordered regex patterns, modelled as
deterministic scanners faithful to Python leftmost/greedy semantics on
these particular patterns), metadata extraction (extract_metadata),
HTML-tree section splitting (extract_content_sections over a rose-tree
model of the BeautifulSoup document), listing-page discovery
(parse_document_list) and search ranking (the /api/search filtering,
relevance scoring, stable descending sort and truncation).

Strings are modelled as List Char; Python's Unicode whitespace class is
modelled by isPySpace, decimal digits by Char.isDigit (ASCII), and
str.lower by an ASCII+Cyrillic case map, which covers the repertoire
the program's fixed tokens and patterns use.
-/

/-- Python's whitespace class (str.strip / regex whitespace), restricted to
the Unicode whitespace code points. -/
def isPySpace (c : Char) : Bool :=
  c == ' ' || c == '\t' || c == '\n' || c == '\r' ||
  c.toNat == 0x0b || c.toNat == 0x0c ||
  (0x1c ≤ c.toNat && c.toNat ≤ 0x1f) ||
  c.toNat == 0x85 || c.toNat == 0xa0 || c.toNat == 0x1680 ||
  (0x2000 ≤ c.toNat && c.toNat ≤ 0x200a) ||
  c.toNat == 0x2028 || c.toNat == 0x2029 || c.toNat == 0x202f ||
  c.toNat == 0x205f || c.toNat == 0x3000

/-- Python str.lower restricted to ASCII letters and the basic Cyrillic
block (А..Я and Ѐ..Џ, which includes Ё). -/
def pyToLower (c : Char) : Char :=
  if 'A' ≤ c ∧ c ≤ 'Z' then Char.ofNat (c.toNat + 32)
  else if 0x410 ≤ c.toNat ∧ c.toNat ≤ 0x42f then Char.ofNat (c.toNat + 0x20)
  else if 0x400 ≤ c.toNat ∧ c.toNat ≤ 0x40f then Char.ofNat (c.toNat + 0x50)
  else c

/-- Lowercase a whole string (Python str.lower). -/
def lowerList (s : List Char) : List Char := s.map pyToLower

/-- Does pat occur as a prefix of s? (Python str.startswith). -/
def startsWithB : List Char → List Char → Bool
  | _, [] => true
  | [], _ :: _ => false
  | c :: s, p :: ps => c == p && startsWithB s ps

/-- Does pat occur as a substring of s? (Python `pat in s`). -/
def containsSub : List Char → List Char → Bool
  | [], pat => pat.isEmpty
  | c :: rest, pat => startsWithB (c :: rest) pat || containsSub rest pat

/-- Does s end with pat? (Python str.endswith). -/
def endsWithB (s pat : List Char) : Bool := startsWithB s.reverse pat.reverse

/-- Remove trailing Python whitespace. -/
def dropTrailing (s : List Char) : List Char := (s.reverse.dropWhile isPySpace).reverse

/-- Python str.strip(): remove leading and trailing whitespace. -/
def pyStrip (s : List Char) : List Char := dropTrailing (s.dropWhile isPySpace)

/-- Replace each maximal run of Python whitespace by a single blank
(the effect of re.sub of a whitespace-run pattern with a blank). -/
def collapseWS : List Char → List Char
  | [] => []
  | [c] => if isPySpace c then [' '] else [c]
  | c :: c2 :: rest =>
    if isPySpace c && isPySpace c2 then collapseWS (c2 :: rest)
    else (if isPySpace c then ' ' else c) :: collapseWS (c2 :: rest)

/-- True for characters that clean_text keeps: everything except the NUL
byte and the BOM marker. -/
def charOk (c : Char) : Bool := !(c == Char.ofNat 0) && !(c == Char.ofNat 0xfeff)

/-- clean_text from src/app.py: empty/None input yields empty; otherwise
strip, collapse whitespace runs to one blank, then delete NUL and BOM
characters (in exactly that order, as the source does). -/
def clean_text (s : List Char) : List Char :=
  if s = [] then []
  else (collapseWS (pyStrip s)).filter charOk

/-- All characters of s are free of NUL and BOM. -/
def noNulBom (s : List Char) : Bool := s.all charOk

/-- Head (if any) is not whitespace. -/
def headNotSpace : List Char → Bool
  | [] => true
  | c :: _ => !isPySpace c

/-- No two adjacent characters are both whitespace. -/
def noDoubleSpace : List Char → Bool
  | c :: c2 :: rest => !(isPySpace c && isPySpace c2) && noDoubleSpace (c2 :: rest)
  | _ => true

/-- Every whitespace character is the plain blank (a single-line string). -/
def spaceOnlyAsBlank (s : List Char) : Bool := s.all (fun c => !isPySpace c || c == ' ')

/-- A fully normalized output string: single-line, runs collapsed,
trimmed at both ends. -/
def isNormalizedText (s : List Char) : Bool :=
  spaceOnlyAsBlank s && noDoubleSpace s && headNotSpace s && headNotSpace s.reverse

/-- The ordered substring rules of determine_document_type, as a table:
patterns (already lowercase, as in the source) paired with the category. -/
def docTypeRules : List (List (List Char) × List Char) :=
  [(["/gost".data, "/standart".data], "ГОСТ".data),
   (["/federalnyj-zakon".data], "Федеральный закон".data),
   (["/prikaz".data], "Приказ".data),
   (["/postanovlenie".data], "Постановление".data),
   (["/snip".data], "СНиП".data),
   (["/sp".data], "СП".data)]

/-- Does a rule fire on the lowercased URL? -/
def ruleHit (u : List Char) (r : List (List Char) × List Char) : Bool :=
  r.1.any (fun p => containsSub u p)

/-- determine_document_type from src/app.py: lowercase the URL, then an
if/elif chain of substring tests in fixed order, defaulting to the
generic category. -/
def determine_document_type (url : List Char) : List Char :=
  let u := lowerList url
  if containsSub u "/gost".data || containsSub u "/standart".data then "ГОСТ".data
  else if containsSub u "/federalnyj-zakon".data then "Федеральный закон".data
  else if containsSub u "/prikaz".data then "Приказ".data
  else if containsSub u "/postanovlenie".data then "Постановление".data
  else if containsSub u "/snip".data then "СНиП".data
  else if containsSub u "/sp".data then "СП".data
  else "Документ".data

/-- Is the character one of the two separators accepted between number
parts (the regex class of dash and slash)? -/
def matchSep (c : Char) : Bool := c == '-' || c == '/'

/-- One step bound for the dotted-suffix loop; fuel is the remaining input
length, always sufficient because each iteration consumes at least two
characters. Consumes a maximal sequence of (dot digits+) groups, exactly
as the greedy regex star does on these patterns. -/
def dotLoopF : Nat → List Char → List Char × List Char
  | 0, s => ([], s)
  | _ + 1, [] => ([], [])
  | fuel + 1, c :: rest =>
    if c = '.' then
      let d := rest.takeWhile Char.isDigit
      if d = [] then ([], c :: rest)
      else
        let pr := dotLoopF fuel (rest.drop d.length)
        ('.' :: (d ++ pr.1), pr.2)
    else ([], c :: rest)

/-- Greedy match of the (dot digits+)* sub-pattern. -/
def dotLoop (s : List Char) : List Char × List Char := dotLoopF s.length s

/-- Match a literal at the head of the input, returning the rest. -/
def stripLit (lit s : List Char) : Option (List Char) :=
  if startsWithB s lit then some (s.drop lit.length) else none

/-- Match one-or-more whitespace (greedy), returning the rest. -/
def dropSpaces1 : List Char → Option (List Char)
  | [] => none
  | c :: rest => if isPySpace c then some (rest.dropWhile isPySpace) else none

/-- The numeric core pattern: digits+, optional dotted groups, a
separator, digits+ (the capture of the GOST/SNiP patterns). -/
def m_numCore (s : List Char) : Option (List Char) :=
  let d1 := s.takeWhile Char.isDigit
  if d1 = [] then none
  else
    let pr := dotLoop (s.drop d1.length)
    match pr.2 with
    | sep :: r3 =>
      if matchSep sep then
        let d2 := r3.takeWhile Char.isDigit
        if d2 = [] then none else some (d1 ++ pr.1 ++ sep :: d2)
      else none
    | [] => none

/-- Pattern 1 of extract_document_number: the numero sign, optional
whitespace, digits+, separator, digits+. -/
def m_num1 : List Char → Option (List Char)
  | [] => none
  | c :: rest =>
    if c = '№' then
      let r := rest.dropWhile isPySpace
      let d1 := r.takeWhile Char.isDigit
      if d1 = [] then none
      else
        match r.drop d1.length with
        | sep :: r2 =>
          if matchSep sep then
            let d2 := r2.takeWhile Char.isDigit
            if d2 = [] then none else some (d1 ++ sep :: d2)
          else none
        | [] => none
    else none

/-- Pattern 2: a 4-or-5 digit run (greedy, so the maximal run here must
have length 4 or 5), separator, then exactly four digits. -/
def m_pair45 (s : List Char) : Option (List Char) :=
  let d1 := s.takeWhile Char.isDigit
  if d1.length = 4 ∨ d1.length = 5 then
    match s.drop d1.length with
    | sep :: r2 =>
      if matchSep sep then
        let d2 := r2.take 4
        if d2.length = 4 ∧ d2.all Char.isDigit then some (d1 ++ sep :: d2) else none
      else none
    | [] => none
  else none

/-- Pattern 3: the GOST literal, whitespace+, an optional Cyrillic R,
whitespace*, then the numeric core. -/
def m_gost (s : List Char) : Option (List Char) :=
  match stripLit "ГОСТ".data s with
  | none => none
  | some r1 =>
    match dropSpaces1 r1 with
    | none => none
    | some r2 =>
      match r2 with
      | [] => m_numCore []
      | c :: rest =>
        if c = 'Р' then m_numCore (rest.dropWhile isPySpace)
        else m_numCore ((c :: rest).dropWhile isPySpace)

/-- Pattern 4: the SP literal, whitespace+, digits with optional dotted
groups (the capture ends the pattern, so it is the maximal such run). -/
def m_sp (s : List Char) : Option (List Char) :=
  match stripLit "СП".data s with
  | none => none
  | some r1 =>
    match dropSpaces1 r1 with
    | none => none
    | some r2 =>
      let d1 := r2.takeWhile Char.isDigit
      if d1 = [] then none
      else some (d1 ++ (dotLoop (r2.drop d1.length)).1)

/-- Pattern 5: the SNiP literal, whitespace+, then the numeric core. -/
def m_snip (s : List Char) : Option (List Char) :=
  match stripLit "СНиП".data s with
  | none => none
  | some r1 =>
    match dropSpaces1 r1 with
    | none => none
    | some r2 => m_numCore r2

/-- Match digits+ then a given literal separator character, returning the
digits and the rest after the separator. -/
def digitsThen (sep : Char) (s : List Char) : Option (List Char × List Char) :=
  let d := s.takeWhile Char.isDigit
  if d = [] then none
  else
    match s.drop d.length with
    | c :: r => if c = sep then some (d, r) else none
    | [] => none

/-- Pattern 6: digits dot digits dot digits. -/
def m_triple (s : List Char) : Option (List Char) :=
  match digitsThen '.' s with
  | none => none
  | some (d1, r2) =>
    match digitsThen '.' r2 with
    | none => none
    | some (d2, r3) =>
      let d3 := r3.takeWhile Char.isDigit
      if d3 = [] then none else some (d1 ++ '.' :: d2 ++ '.' :: d3)

/-- Pattern 7: digits dash digits. -/
def m_dashPair (s : List Char) : Option (List Char) :=
  match digitsThen '-' s with
  | none => none
  | some (d1, r2) =>
    let d2 := r2.takeWhile Char.isDigit
    if d2 = [] then none else some (d1 ++ '-' :: d2)

/-- re.search: try the matcher at each position left to right and return
the first (leftmost) capture. -/
def searchFirst (m : List Char → Option (List Char)) : List Char → Option (List Char)
  | [] => m []
  | c :: rest =>
    match m (c :: rest) with
    | some r => some r
    | none => searchFirst m rest

/-- extract_document_number from src/app.py: the seven patterns tried in
their fixed order against the title-then-URL concatenation; the first
match anywhere wins. -/
def extract_document_number (url title : List Char) : Option (List Char) :=
  let combined := title ++ ' ' :: url
  (searchFirst m_num1 combined).orElse fun _ =>
  (searchFirst m_pair45 combined).orElse fun _ =>
  (searchFirst m_gost combined).orElse fun _ =>
  (searchFirst m_sp combined).orElse fun _ =>
  (searchFirst m_snip combined).orElse fun _ =>
  (searchFirst m_triple combined).orElse fun _ =>
  searchFirst m_dashPair combined

/-- Match one-or-two digits followed by a dot (the greedy bounded
quantifier: with three or more digits available neither option leaves a
dot next, so the maximal run must have length one or two). -/
def mTake12dot (s : List Char) : Option (List Char × List Char) :=
  let d := s.takeWhile Char.isDigit
  if d.length = 1 ∨ d.length = 2 then
    match s.drop d.length with
    | c :: r => if c = '.' then some (d, r) else none
    | [] => none
  else none

/-- Match exactly k digits (an exact bounded quantifier). -/
def mTakeDigits (k : Nat) (s : List Char) : Option (List Char × List Char) :=
  let d := s.take k
  if d.length = k ∧ d.all Char.isDigit then some (d, s.drop k) else none

/-- The DD.MM.YYYY date core. -/
def m_dateCore (s : List Char) : Option (List Char) :=
  match mTake12dot s with
  | none => none
  | some (d1, r1) =>
    match mTake12dot r1 with
    | none => none
    | some (d2, r2) =>
      match mTakeDigits 4 r2 with
      | none => none
      | some (d3, _) => some (d1 ++ '.' :: d2 ++ '.' :: d3)

/-- Date pattern 1: the "ot" literal, whitespace+, then DD.MM.YYYY. -/
def m_date1 (s : List Char) : Option (List Char) :=
  match stripLit "от".data s with
  | none => none
  | some r1 =>
    match dropSpaces1 r1 with
    | none => none
    | some r2 => m_dateCore r2

/-- Match exactly k digits then a given literal separator. -/
def exactDigitsThen (k : Nat) (sep : Char) (s : List Char) :
    Option (List Char × List Char) :=
  match mTakeDigits k s with
  | none => none
  | some (d, r) =>
    match r with
    | c :: r2 => if c = sep then some (d, r2) else none
    | [] => none

/-- Date pattern 3: the ISO YYYY-MM-DD form. -/
def m_date3 (s : List Char) : Option (List Char) :=
  match exactDigitsThen 4 '-' s with
  | none => none
  | some (d1, r2) =>
    match exactDigitsThen 2 '-' r2 with
    | none => none
    | some (d2, r4) =>
      match mTakeDigits 2 r4 with
      | none => none
      | some (d3, _) => some (d1 ++ '-' :: d2 ++ '-' :: d3)

/-- Metadata number pattern 1: the numero sign, whitespace*, then a
maximal nonempty run over the class of numero sign, digits, dash, slash. -/
def m_metaNum1 : List Char → Option (List Char)
  | [] => none
  | c :: rest =>
    if c = '№' then
      let r := rest.dropWhile isPySpace
      let d := r.takeWhile (fun ch => ch == '№' || ch.isDigit || ch == '-' || ch == '/')
      if d = [] then none else some d
    else none

/-- Status determination of extract_metadata (src/app.py lines 312-319):
lowercase the page text, test the active token first, then the two
inactive tokens, else undetermined. -/
def status_of_text (text : List Char) : List Char :=
  let tl := lowerList text
  if containsSub tl "действует".data then "Действует".data
  else if containsSub tl "отменен".data || containsSub tl "утратил силу".data then
    "Не действует".data
  else "Не определен".data

/-- Rose-tree model of the BeautifulSoup document: a NavigableString leaf
or a Tag with a name, CSS classes and children. -/
inductive Node where
  | text (s : List Char)
  | elem (name : List Char) (classes : List (List Char)) (children : List Node)

/-- The element kinds decomposed before section extraction. -/
def isNoiseName (n : List Char) : Bool :=
  n == "script".data || n == "style".data || n == "nav".data ||
  n == "header".data || n == "footer".data || n == "aside".data

mutual

/-- Remove every noise-kind element (and its whole subtree) from the tree,
modelling element.decompose() on all matches. -/
def stripNoise : Node → Node
  | .text s => .text s
  | .elem name cls cs => .elem name cls (stripNoiseList cs)

/-- The contribution of one child to the noise-stripped child list. -/
def stripKeep : Node → List Node
  | .text s => [.text s]
  | .elem name cls cs =>
    if isNoiseName name then [] else [.elem name cls (stripNoiseList cs)]

/-- Noise-strip a list of siblings. -/
def stripNoiseList : List Node → List Node
  | [] => []
  | c :: rest => stripKeep c ++ stripNoiseList rest

end

mutual

/-- All NavigableString contents of a subtree, in document order. -/
def textStrings : Node → List (List Char)
  | .text s => [s]
  | .elem _ _ cs => textStringsList cs

/-- All NavigableString contents under a sibling list. -/
def textStringsList : List Node → List (List Char)
  | [] => []
  | c :: cs => textStrings c ++ textStringsList cs

end

/-- Concatenate a list of strings. -/
def concatAll : List (List Char) → List Char
  | [] => []
  | s :: rest => s ++ concatAll rest

/-- Join a list of strings with single blanks between them. -/
def joinSpace : List (List Char) → List Char
  | [] => []
  | [s] => s
  | s :: t :: r => s ++ ' ' :: joinSpace (t :: r)

/-- element.get_text() with the default empty separator. -/
def getText (n : Node) : List Char := concatAll (textStrings n)

/-- element.get_text(separator=' '). -/
def getTextSep (n : Node) : List Char := joinSpace (textStrings n)

mutual

/-- element.string: a string leaf yields itself; a tag with exactly one
child delegates to it; any other tag yields none. -/
def nodeString : Node → Option (List Char)
  | .text s => some s
  | .elem _ _ cs => singleString cs

/-- The .string of a child list: defined only for a singleton. -/
def singleString : List Node → Option (List Char)
  | [c] => nodeString c
  | _ => none

end

mutual

/-- Pre-order descendants of a node (the node itself included), each
paired with the name of its immediate parent. -/
def withParents (pname : List Char) : Node → List (List Char × Node)
  | .text s => [(pname, .text s)]
  | .elem name cls cs => (pname, .elem name cls cs) :: withParentsList name cs

/-- Pre-order traversal of a sibling list with parent names. -/
def withParentsList (pname : List Char) : List Node → List (List Char × Node)
  | [] => []
  | c :: cs => withParents pname c ++ withParentsList pname cs

end

/-- element.descendants in document order, paired with parent names. -/
def descendantsWP : Node → List (List Char × Node)
  | .text _ => []
  | .elem name _ cs => withParentsList name cs

/-- A CSS selector of the two kinds the source uses. -/
inductive Sel where
  | byClass (c : List Char)
  | byName (n : List Char)

/-- Does a selector match a node? -/
def selMatches (sel : Sel) (n : Node) : Bool :=
  match sel, n with
  | .byClass c, .elem _ cls _ => cls.any (fun x => x == c)
  | .byName nm, .elem name _ _ => name == nm
  | _, .text _ => false

mutual

/-- First match for a selector in a subtree (the root included),
pre-order / document order. -/
def selNode (sel : Sel) : Node → Option Node
  | .text s => if selMatches sel (.text s) then some (.text s) else none
  | .elem name cls cs =>
    if selMatches sel (.elem name cls cs) then some (.elem name cls cs)
    else selFirst sel cs

/-- First match for a selector in a sibling list. -/
def selFirst (sel : Sel) : List Node → Option Node
  | [] => none
  | c :: cs =>
    match selNode sel c with
    | some r => some r
    | none => selFirst sel cs

end

/-- soup.select_one / soup.find: first matching descendant of the root in
document order (the root itself, the document object, never matches). -/
def selectOne (sel : Sel) (root : Node) : Option Node :=
  match root with
  | .text _ => none
  | .elem _ _ cs => selFirst sel cs

/-- Try an ordered list of selectors, first hit wins. -/
def trySelectors : List Sel → Node → Option Node
  | [], _ => none
  | sel :: rest, soup =>
    match selectOne sel soup with
    | some e => some e
    | none => trySelectors rest soup

/-- The ordered content selectors of extract_content_sections. -/
def contentSelectors : List Sel :=
  [.byClass "document-content".data, .byClass "doc-content".data,
   .byClass "main-content".data, .byName "main".data,
   .byClass "content".data, .byName "article".data]

/-- Locate the main content region: the ordered selectors, then the body
fallback. -/
def selectContent (soup : Node) : Option Node :=
  match trySelectors contentSelectors soup with
  | some e => some e
  | none => selectOne (.byName "body".data) soup

/-- The heading tag names h1..h6. -/
def headingNames : List (List Char) :=
  ["h1".data, "h2".data, "h3".data, "h4".data, "h5".data, "h6".data]

/-- Is the tag name a heading name? -/
def isHeadingName (n : List Char) : Bool := headingNames.any (fun h => h == n)

/-- main_content.find_all of the heading names: every heading element
among the descendants. -/
def findHeadings (mc : Node) : List Node :=
  (descendantsWP mc).filterMap (fun q =>
    match q.2 with
    | .elem name cls cs => if isHeadingName name then some (.elem name cls cs) else none
    | .text _ => none)

/-- One emitted section: a title and its accumulated normalized content. -/
structure DocSection where
  title : List Char
  content : List Char
deriving DecidableEq, Repr

/-- The state of the section splitter: the current section under
construction and the sections emitted so far. -/
structure SecState where
  curTitle : List Char
  curContent : List Char
  out : List DocSection
deriving Repr

/-- Close the current section: emit it (normalized) only when its raw
content strips to nonempty. -/
def flushSection (st : SecState) : List DocSection :=
  if pyStrip st.curContent = [] then st.out
  else st.out ++ [⟨st.curTitle, clean_text st.curContent⟩]

/-- The non-heading branch of the traversal: when the node's .string is
truthy and its parent is not script/style, append the stripped text plus
a blank to the current content. -/
def appendString (st : SecState) (pn : List Char) (node : Node) : SecState :=
  match nodeString node with
  | none => st
  | some s =>
    if s = [] then st
    else if pn = "script".data ∨ pn = "style".data then st
    else if pyStrip s = [] then st
    else ⟨st.curTitle, st.curContent ++ pyStrip s ++ [' '], st.out⟩

/-- One traversal step of the section state machine. -/
def stepSec (st : SecState) (pn : List Char) (node : Node) : SecState :=
  match node with
  | .elem name cls cs =>
    if isHeadingName name then
      ⟨clean_text (getText (.elem name cls cs)), [], flushSection st⟩
    else appendString st pn (.elem name cls cs)
  | .text s => appendString st pn (.text s)

/-- Run the state machine over the content region's descendants, then
flush the final section. -/
def runSections (mc : Node) : List DocSection :=
  flushSection
    ((descendantsWP mc).foldl (fun st q => stepSec st q.1 q.2) ⟨"Введение".data, [], []⟩)

/-- The fixed generic section title used when the region has no headings. -/
def docContentsTitle : List Char := "Содержание документа".data

/-- extract_content_sections from src/app.py: decompose noise elements,
locate the content region, then either the heading state machine or the
single generic section over the region's full text. -/
def extract_content_sections (soup : Node) : List DocSection :=
  let soup2 := stripNoise soup
  match selectContent soup2 with
  | none => []
  | some mc =>
    if (findHeadings mc).isEmpty then
      let ft := clean_text (getTextSep mc)
      if ft = [] then [] else [⟨docContentsTitle, ft⟩]
    else runSections mc

/-- The ordered title selectors of extract_title. -/
def titleSelectors : List Sel :=
  [.byName "h1".data, .byClass "document-title".data, .byClass "doc-title".data,
   .byClass "main-title".data, .byName "title".data]

/-- Try the title selectors in order; a found element whose normalized
text is longer than five characters wins, else the fixed default. -/
def tryTitleSelectors : List Sel → Node → List Char
  | [], _ => "Документ без названия".data
  | sel :: rest, soup =>
    match selectOne sel soup with
    | some el =>
      let t := clean_text (getText el)
      if t ≠ [] ∧ t.length > 5 then t else tryTitleSelectors rest soup
    | none => tryTitleSelectors rest soup

/-- extract_title from src/app.py. -/
def extract_title (soup : Node) : List Char := tryTitleSelectors titleSelectors soup

/-- The metadata record: optional date and number, and the always-present
status string. -/
structure Metadata where
  date : Option (List Char)
  number : Option (List Char)
  status : List Char
deriving DecidableEq, Repr

/-- extract_metadata from src/app.py: first-match date over the page
text, first-match number over title plus text, and the status keyword
chain. -/
def extract_metadata (soup : Node) (title : List Char) : Metadata :=
  let text := getText soup
  let date := (searchFirst m_date1 text).orElse fun _ =>
    (searchFirst m_dateCore text).orElse fun _ => searchFirst m_date3 text
  let numText := title ++ ' ' :: text
  let number := (searchFirst m_metaNum1 numText).orElse fun _ =>
    (searchFirst m_gost numText).orElse fun _ => searchFirst m_pair45 numText
  ⟨date, number, status_of_text text⟩

/-- The detail record: the success shape with all structural fields, or
the error shape carrying the message, the url and the timestamp. -/
inductive DocumentDetail where
  | success (title : List Char) (sections : List DocSection) (metadata : Metadata)
      (url : List Char) (parsed_at : List Char)
  | error (msg : List Char) (url : List Char) (parsed_at : List Char)
deriving DecidableEq, Repr

/-- The fixed message prefix of the captured detail-retrieval error. -/
def errPrefix : List Char := "Ошибка при получении деталей документа: ".data

/-- get_document_details from src/app.py: fetch and parse, catching any
fetch failure into the error shape. The page fetch is the external
collaborator, passed as a function returning the parsed tree or an
error message; the timestamp is passed in. Note the source mutates the
shared soup: extract_metadata runs after extract_content_sections has
decomposed the noise elements, hence the stripNoise on its argument. -/
def get_document_details (fetchPage : List Char → Except (List Char) Node)
    (doc_url now : List Char) : DocumentDetail :=
  match fetchPage doc_url with
  | .ok soup =>
    DocumentDetail.success (extract_title soup) (extract_content_sections soup)
      (extract_metadata (stripNoise soup) (extract_title soup)) doc_url now
  | .error e => DocumentDetail.error (errPrefix ++ e) doc_url now

/-- A route response: a 400 validation error or a serialized detail
record with its HTTP code. -/
inductive RouteResult where
  | validation (msg : List Char) (code : Nat)
  | detail (d : DocumentDetail) (code : Nat)
deriving DecidableEq, Repr

/-- The fixed source origin checked by the /api/document route. -/
def sourceOrigin : List Char := "https://meganorm.ru".data

/-- The missing-parameter validation message. -/
def missingUrlMsg : List Char := "Параметр url обязателен".data

/-- The foreign-origin validation message. -/
def invalidOriginMsg : List Char := "URL должен принадлежать сайту meganorm.ru".data

/-- The /api/document route from src/app.py: missing/empty url is a 400,
a url not under the fixed origin is a 400, otherwise the detail record
is returned with 500 on the error shape and 200 on success. -/
def route_get_document (fetchPage : List Char → Except (List Char) Node)
    (urlParam : Option (List Char)) (now : List Char) : RouteResult :=
  match urlParam with
  | none => .validation missingUrlMsg 400
  | some doc_url =>
    if doc_url = [] then .validation missingUrlMsg 400
    else if startsWithB doc_url sourceOrigin then
      match get_document_details fetchPage doc_url now with
      | .error e u p => .detail (.error e u p) 500
      | .success t s m u p => .detail (.success t s m u p) 200
    else .validation invalidOriginMsg 400

/-- A candidate anchor element: its raw href attribute (possibly absent)
and its anchor text. -/
structure Link where
  href : Option (List Char)
  text : List Char

/-- A discovery summary record. -/
structure DocumentSummary where
  title : List Char
  url : List Char
  type : List Char
  number : Option (List Char)
  relative_url : List Char
deriving DecidableEq, Repr

/-- The paginator marker suffix excluded from discovery. -/
def paginatorSuffix : List Char := "_0.html".data

/-- The dedup loop of parse_document_list: keep a link only when its href
is present, truthy, unseen, and not a paginator marker; first-seen order
is preserved. -/
def dedupLinks : List (List Char) → List Link → List Link
  | _, [] => []
  | seen, l :: ls =>
    match l.href with
    | none => dedupLinks seen ls
    | some h =>
      if h ≠ [] ∧ h ∉ seen ∧ endsWithB h paginatorSuffix = false then
        l :: dedupLinks (h :: seen) ls
      else dedupLinks seen ls

/-- extract_document_info_from_link from src/app.py: skip candidates with
no href or a normalized title shorter than three characters; otherwise
build the summary. urljoin is the external collaborator resolve. -/
def extract_document_info_from_link (resolve : List Char → List Char)
    (link : Link) : Option DocumentSummary :=
  match link.href with
  | none => none
  | some href =>
    let title := clean_text link.text
    if title = [] ∨ title.length < 3 then none
    else some ⟨title, resolve href, determine_document_type href,
      extract_document_number href title, href⟩

/-- parse_document_list from src/app.py, taking the collected candidate
links of the selectors as input: dedup, cap at 100, then extract each
summary, skipping failures. -/
def parse_document_list (resolve : List Char → List Char)
    (links : List Link) : List DocumentSummary :=
  ((dedupLinks [] links).take 100).filterMap (extract_document_info_from_link resolve)

/-- Python str.count: non-overlapping occurrences, scanning left to
right; the fuel is the input length, always sufficient. -/
def countOccAux (pat : List Char) : Nat → List Char → Nat
  | 0, _ => 0
  | _ + 1, [] => 0
  | fuel + 1, c :: rest =>
    if startsWithB (c :: rest) pat then
      1 + countOccAux pat fuel ((c :: rest).drop pat.length)
    else countOccAux pat fuel rest

/-- Python str.count, including its empty-pattern convention. -/
def countOcc (s pat : List Char) : Nat :=
  if pat = [] then s.length + 1 else countOccAux pat s.length s

/-- Stable descending insertion by relevance: an element is placed before
the first element whose relevance does not exceed it, so earlier
elements precede later ones of equal relevance. -/
def insertByRel (x : DocumentSummary × Nat) :
    List (DocumentSummary × Nat) → List (DocumentSummary × Nat)
  | [] => [x]
  | y :: ys => if y.2 ≤ x.2 then x :: y :: ys else y :: insertByRel x ys

/-- Stable sort descending by relevance (Python list.sort with a
relevance key and reverse=True is stable in exactly this sense). -/
def sortByRelevance : List (DocumentSummary × Nat) → List (DocumentSummary × Nat)
  | [] => []
  | x :: xs => insertByRel x (sortByRelevance xs)

/-- The filtering step of /api/search: keep the summaries whose
lowercased title contains the lowercased query, pairing each with its
occurrence-count relevance. -/
def search_filter (ql : List Char) (docs : List DocumentSummary) :
    List (DocumentSummary × Nat) :=
  docs.filterMap (fun d =>
    let tl := lowerList d.title
    if containsSub tl ql then some (d, countOcc tl ql) else none)

/-- The core of /api/search from src/app.py: filter, score, stable
descending sort, truncate to min 100. -/
def search_documents_core (query : List Char) (docs : List DocumentSummary) :
    List (DocumentSummary × Nat) :=
  let sorted := sortByRelevance (search_filter (lowerList query) docs)
  sorted.take (min 100 sorted.length)

/-- No character of s is a decimal digit. -/
def noDigitStr (s : List Char) : Bool := s.all (fun c => !c.isDigit)

mutual

/-- Every text node of the tree is free of NUL and BOM characters. -/
def treeClean : Node → Bool
  | .text s => noNulBom s
  | .elem _ _ cs => treeCleanList cs

/-- treeClean over a sibling list. -/
def treeCleanList : List Node → Bool
  | [] => true
  | c :: cs => treeClean c && treeCleanList cs

end

/-- Invariant of the section state machine: the accumulated raw content
is NUL/BOM-free and every section emitted so far has nonempty content. -/
def goodState (st : SecState) : Prop :=
  noNulBom st.curContent = true ∧ ∀ sec ∈ st.out, sec.content ≠ []

/-- The BOM character. -/
def bomChar : Char := Char.ofNat 0xfeff

/-- A document whose body has an empty heading followed by a BOM-only
text node: the state machine emits a section whose content normalizes
to empty. -/
def bomSectionSoup : Node :=
  .elem "[document]".data []
    [.elem "body".data [] [.elem "h1".data [] [], .text [bomChar]]]

/-- A plain document with noise and ordinary text, NUL/BOM-free. -/
def plainBodySoup : Node :=
  .elem "[document]".data []
    [.elem "body".data []
      [.elem "script".data [] [.text "SECRET".data], .text "абв".data]]

/-- A document whose content region (the body fallback) exists, has no
headings and no text at all. -/
def emptyRegionSoup : Node :=
  .elem "[document]".data [] [.elem "html".data [] [.elem "body".data [] []]]

/-- A document with a heading-free body holding plain text. -/
def textRegionSoup : Node :=
  .elem "[document]".data [] [.elem "body".data [] [.text "Привет мир документ".data]]

/-- The content region of textRegionSoup (its body). -/
def textRegionBody : Node := .elem "body".data [] [.text "Привет мир документ".data]

/-- Candidate links for the discovery example: a real document link, an
exact duplicate, a paginator marker and an anchor with no href. -/
def demoLinks : List Link :=
  [⟨some "/mega_doc/a.html".data, "ГОСТ Р 12345-67 Название".data⟩,
   ⟨some "/mega_doc/a.html".data, "дубль ссылки".data⟩,
   ⟨some "/mega_doc/prikaz_0.html".data, "пагинатор".data⟩,
   ⟨none, "без ссылки".data⟩]

/-- A urljoin model for the discovery example. -/
def demoResolve (h : List Char) : List Char := "https://meganorm.ru".data ++ h

/-- The summary the discovery example emits. -/
def demoSummary : DocumentSummary :=
  ⟨"ГОСТ Р 12345-67 Название".data, "https://meganorm.ru/mega_doc/a.html".data,
   "Документ".data, some "12345-67".data, "/mega_doc/a.html".data⟩

/-- The summaries of the search-ranking example. -/
def searchDemoDocs : List DocumentSummary :=
  [⟨"Fire Safety Code".data, [], [], none, []⟩,
   ⟨"Fire Code Annex fire".data, [], [], none, []⟩,
   ⟨"Building Code".data, [], [], none, []⟩]

/-- The top search hit of the example. -/
def fireAnnexDoc : DocumentSummary := ⟨"Fire Code Annex fire".data, [], [], none, []⟩

theorem dropWhile_head_ns (s : List Char) : headNotSpace (s.dropWhile isPySpace) = true := by
  induction s with
  | nil => rfl
  | cons c cs ih =>
    by_cases h : isPySpace c
    · simpa [List.dropWhile_cons, h] using ih
    · simp [List.dropWhile_cons, h, headNotSpace]

theorem dropWhile_append_last {ys : List Char} {c : Char} (hc : isPySpace c = false) :
    (ys ++ [c]).dropWhile isPySpace = ys.dropWhile isPySpace ++ [c] := by
  induction ys with
  | nil => simp [List.dropWhile_cons, hc]
  | cons a as ih => by_cases h : isPySpace a <;> simp [List.dropWhile_cons, h, ih]

theorem dropTrailing_head_ns {u : List Char} (h : headNotSpace u = true) :
    headNotSpace (dropTrailing u) = true := by
  cases u with
  | nil => rfl
  | cons c rest =>
    have hc : isPySpace c = false := by simpa [headNotSpace] using h
    simp [dropTrailing, dropWhile_append_last hc, headNotSpace, hc]

theorem pyStrip_head_ns (s : List Char) : headNotSpace (pyStrip s) = true :=
  dropTrailing_head_ns (dropWhile_head_ns s)

theorem pyStrip_rev_head_ns (s : List Char) : headNotSpace (pyStrip s).reverse = true := by
  simpa [pyStrip, dropTrailing, List.reverse_reverse] using
    dropWhile_head_ns ((s.dropWhile isPySpace).reverse)

theorem mem_of_mem_pyStrip {s : List Char} {c : Char} (h : c ∈ pyStrip s) : c ∈ s := by
  rw [pyStrip, dropTrailing, List.mem_reverse] at h
  have h2 : c ∈ (s.dropWhile isPySpace).reverse := (List.dropWhile_sublist _).subset h
  rw [List.mem_reverse] at h2
  exact (List.dropWhile_sublist _).subset h2

theorem collapse_head : ∀ (c : Char) (rest : List Char),
    ∃ t, collapseWS (c :: rest) = (if isPySpace c then ' ' else c) :: t
  | c, [] => ⟨[], by by_cases h : isPySpace c <;> simp [collapseWS, h]⟩
  | c, c2 :: rest => by
    obtain ⟨t, ht⟩ := collapse_head c2 rest
    by_cases h1 : isPySpace c
    · by_cases h2 : isPySpace c2
      · exact ⟨t, by simp [collapseWS, h1, h2, ht]⟩
      · exact ⟨collapseWS (c2 :: rest), by simp [collapseWS, h1, h2]⟩
    · exact ⟨collapseWS (c2 :: rest), by simp [collapseWS, h1]⟩

theorem collapse_mem : ∀ (s : List Char) (c : Char), c ∈ collapseWS s →
    c = ' ' ∨ (c ∈ s ∧ isPySpace c = false)
  | [], c, h => by simp [collapseWS] at h
  | [a], c, h => by
    by_cases ha : isPySpace a
    · left; simpa [collapseWS, ha] using h
    · right
      simp [collapseWS, ha] at h
      subst h
      exact ⟨by simp, by simpa using ha⟩
  | a :: b :: rest, c, h => by
    by_cases h1 : isPySpace a
    · by_cases h2 : isPySpace b
      · rcases collapse_mem (b :: rest) c (by simpa [collapseWS, h1, h2] using h) with
          h3 | ⟨h3, h4⟩
        · exact Or.inl h3
        · exact Or.inr ⟨List.mem_cons_of_mem _ h3, h4⟩
      · simp only [collapseWS, h1, h2] at h
        simp at h
        rcases h with h | h
        · exact Or.inl h
        · rcases collapse_mem (b :: rest) c h with h3 | ⟨h3, h4⟩
          · exact Or.inl h3
          · exact Or.inr ⟨List.mem_cons_of_mem _ h3, h4⟩
    · simp only [collapseWS, h1] at h
      simp at h
      rcases h with h | h
      · subst h; exact Or.inr ⟨by simp, by simpa using h1⟩
      · rcases collapse_mem (b :: rest) c h with h3 | ⟨h3, h4⟩
        · exact Or.inl h3
        · exact Or.inr ⟨List.mem_cons_of_mem _ h3, h4⟩

theorem mem_collapse_of_ns : ∀ (s : List Char) (c : Char), c ∈ s → isPySpace c = false →
    c ∈ collapseWS s
  | [], c, hm, _ => absurd hm (by simp)
  | [a], c, hm, hns => by
    simp at hm
    subst hm
    simp [collapseWS, hns]
  | a :: b :: rest, c, hm, hns => by
    by_cases h1 : isPySpace a
    · have hm' : c ∈ b :: rest := by
        rcases List.mem_cons.mp hm with h | h
        · subst h; rw [hns] at h1; cases h1
        · exact h
      have ih := mem_collapse_of_ns (b :: rest) c hm' hns
      by_cases h2 : isPySpace b
      · simpa [collapseWS, h1, h2] using ih
      · simp only [collapseWS, h1, h2]
        simp
        exact Or.inr ih
    · rcases List.mem_cons.mp hm with h | h
      · subst h
        simp only [collapseWS, h1]
        simp [h1]
      · have ih := mem_collapse_of_ns (b :: rest) c h hns
        simp only [collapseWS, h1]
        simp [h1]
        exact Or.inr ih

theorem collapse_noDouble : ∀ s : List Char, noDoubleSpace (collapseWS s) = true
  | [] => rfl
  | [a] => by by_cases h : isPySpace a <;> simp [collapseWS, h, noDoubleSpace]
  | a :: b :: rest => by
    have ih := collapse_noDouble (b :: rest)
    obtain ⟨t, ht⟩ := collapse_head b rest
    by_cases h1 : isPySpace a
    · by_cases h2 : isPySpace b
      · simpa [collapseWS, h1, h2] using ih
      · have hb : collapseWS (b :: rest) = b :: t := by rw [ht, if_neg (by simp [h2])]
        have ih' : noDoubleSpace (b :: t) = true := by rw [hb] at ih; exact ih
        simpa [collapseWS, h1, h2, hb, noDoubleSpace] using ih'
    · by_cases h2 : isPySpace b
      · have hb : collapseWS (b :: rest) = ' ' :: t := by rw [ht, if_pos h2]
        have ih' : noDoubleSpace (' ' :: t) = true := by rw [hb] at ih; exact ih
        simpa [collapseWS, h1, h2, hb, noDoubleSpace] using ih'
      · have hb : collapseWS (b :: rest) = b :: t := by rw [ht, if_neg (by simp [h2])]
        have ih' : noDoubleSpace (b :: t) = true := by rw [hb] at ih; exact ih
        simpa [collapseWS, h1, h2, hb, noDoubleSpace] using ih'

theorem collapse_getLast : ∀ (s : List Char) (c : Char), s.getLast? = some c →
    isPySpace c = false → (collapseWS s).getLast? = some c
  | [], c, h, _ => by simp at h
  | [a], c, h, hns => by
    simp at h
    subst h
    simp [collapseWS, hns]
  | a :: b :: rest, c, h, hns => by
    have h' : (b :: rest).getLast? = some c := by simpa [List.getLast?_cons_cons] using h
    have ih := collapse_getLast (b :: rest) c h' hns
    obtain ⟨t, ht⟩ := collapse_head b rest
    by_cases h1 : isPySpace a
    · by_cases h2 : isPySpace b
      · simpa [collapseWS, h1, h2] using ih
      · have step : (' ' :: collapseWS (b :: rest)).getLast? = some c := by
          rw [ht, List.getLast?_cons_cons, ← ht]
          exact ih
        simpa [collapseWS, h1, h2] using step
    · have step : (a :: collapseWS (b :: rest)).getLast? = some c := by
        rw [ht, List.getLast?_cons_cons, ← ht]
        exact ih
      simpa [collapseWS, h1] using step

theorem collapse_fix : ∀ s : List Char, spaceOnlyAsBlank s = true → noDoubleSpace s = true →
    collapseWS s = s
  | [], _, _ => rfl
  | [a], hs, _ => by
    by_cases h : isPySpace a
    · have ha : a = ' ' := by
        have h2 := (List.all_eq_true.mp hs) a (by simp)
        simp [h] at h2
        exact h2
      rw [ha] at h ⊢
      simp [collapseWS, h]
    · simp [collapseWS, h]
  | a :: b :: rest, hs, hd => by
    have hs' : spaceOnlyAsBlank (b :: rest) = true := by
      rw [spaceOnlyAsBlank, List.all_eq_true]
      intro x hx
      exact (List.all_eq_true.mp hs) x (List.mem_cons_of_mem _ hx)
    have hd' : noDoubleSpace (b :: rest) = true := by
      simp [noDoubleSpace] at hd
      exact hd.2
    have ih := collapse_fix (b :: rest) hs' hd'
    by_cases h1 : isPySpace a
    · have ha : a = ' ' := by
        have h2 := (List.all_eq_true.mp hs) a (by simp)
        simp [h1] at h2
        exact h2
      have h2 : isPySpace b = false := by
        simp [noDoubleSpace, h1] at hd
        exact hd.1
      simp only [collapseWS, h1, h2]
      simp [ih, ha]
    · simp only [collapseWS, h1]
      simp [h1, ih]

theorem dropWhile_of_head_ns {l : List Char} (h : headNotSpace l = true) :
    l.dropWhile isPySpace = l := by
  cases l with
  | nil => rfl
  | cons c cs =>
    simp [List.dropWhile_cons, show isPySpace c = false by simpa [headNotSpace] using h]

theorem pyStrip_fix {s : List Char} (h1 : headNotSpace s = true)
    (h2 : headNotSpace s.reverse = true) : pyStrip s = s := by
  simp [pyStrip, dropTrailing, dropWhile_of_head_ns h1, dropWhile_of_head_ns h2,
    List.reverse_reverse]

theorem filter_charOk_of_noNulBom {s : List Char} (h : noNulBom s = true) :
    s.filter charOk = s :=
  List.filter_eq_self.mpr (by simpa [noNulBom, List.all_eq_true] using h)

theorem noNulBom_collapse_pyStrip {s : List Char} (h : noNulBom s = true) :
    noNulBom (collapseWS (pyStrip s)) = true := by
  rw [noNulBom, List.all_eq_true]
  intro c hc
  rcases collapse_mem _ c hc with rfl | ⟨hm, _⟩
  · decide
  · exact (List.all_eq_true.mp h) c (mem_of_mem_pyStrip hm)

theorem clean_text_eq_collapse {s : List Char} (h : noNulBom s = true) (hne : s ≠ []) :
    clean_text s = collapseWS (pyStrip s) := by
  rw [clean_text, if_neg hne]
  exact filter_charOk_of_noNulBom (noNulBom_collapse_pyStrip h)

theorem clean_text_noNulBom (s : List Char) : noNulBom (clean_text s) = true := by
  rw [clean_text]
  split
  · rfl
  · rw [noNulBom, List.all_eq_true]
    intro c hc
    exact List.of_mem_filter hc

theorem headNotSpace_reverse_of_getLast {l : List Char} {c : Char}
    (hg : l.getLast? = some c) (hns : isPySpace c = false) :
    headNotSpace l.reverse = true := by
  have hh : l.reverse.head? = some c := by rw [List.head?_reverse]; exact hg
  cases hr : l.reverse with
  | nil => rfl
  | cons a as =>
    rw [hr] at hh
    simp at hh
    subst hh
    simp [headNotSpace, hns]

theorem getLast_ns_of_rev_head_ns {l : List Char} {c : Char}
    (h : headNotSpace l.reverse = true) (hg : l.getLast? = some c) :
    isPySpace c = false := by
  have hh : l.reverse.head? = some c := by rw [List.head?_reverse]; exact hg
  cases hr : l.reverse with
  | nil => rw [hr] at hh; simp at hh
  | cons a as =>
    rw [hr] at hh h
    simp at hh
    subst hh
    simpa [headNotSpace] using h

theorem clean_text_normalized {s : List Char} (h : noNulBom s = true) :
    isNormalizedText (clean_text s) = true := by
  by_cases hne : s = []
  · subst hne; decide
  · rw [clean_text_eq_collapse h hne, isNormalizedText]
    have c1 : spaceOnlyAsBlank (collapseWS (pyStrip s)) = true := by
      rw [spaceOnlyAsBlank, List.all_eq_true]
      intro c hc
      rcases collapse_mem _ c hc with rfl | ⟨_, hns⟩
      · decide
      · simp [hns]
    have c2 : noDoubleSpace (collapseWS (pyStrip s)) = true := collapse_noDouble _
    have c3 : headNotSpace (collapseWS (pyStrip s)) = true := by
      cases hps : pyStrip s with
      | nil => rfl
      | cons c cs =>
        have hcns : isPySpace c = false := by
          have := pyStrip_head_ns s
          rw [hps] at this
          simpa [headNotSpace] using this
        obtain ⟨t, ht⟩ := collapse_head c cs
        rw [ht, if_neg (by simp [hcns])]
        simp [headNotSpace, hcns]
    have c4 : headNotSpace (collapseWS (pyStrip s)).reverse = true := by
      cases hg : (pyStrip s).getLast? with
      | none =>
        have : pyStrip s = [] := by
          cases hps : pyStrip s with
          | nil => rfl
          | cons c cs => rw [hps] at hg; simp [List.getLast?_eq_getLast] at hg
        rw [this]
        rfl
      | some c =>
        have hcns : isPySpace c = false :=
          getLast_ns_of_rev_head_ns (pyStrip_rev_head_ns s) hg
        exact headNotSpace_reverse_of_getLast (collapse_getLast _ _ hg hcns) hcns
    simp [c1, c2, c3, c4]

theorem clean_text_idem_aux {s : List Char} (h : noNulBom s = true) :
    clean_text (clean_text s) = clean_text s := by
  by_cases hne : s = []
  · subst hne; rfl
  · have heq := clean_text_eq_collapse h hne
    have hnorm := clean_text_normalized h
    have hnb : noNulBom (clean_text s) = true := clean_text_noNulBom s
    by_cases htn : clean_text s = []
    · rw [htn]; rfl
    · obtain ⟨hso, hnd, hh, hr⟩ : spaceOnlyAsBlank (clean_text s) = true ∧
          noDoubleSpace (clean_text s) = true ∧ headNotSpace (clean_text s) = true ∧
          headNotSpace (clean_text s).reverse = true := by
        simpa [isNormalizedText, Bool.and_eq_true, and_assoc] using hnorm
      rw [clean_text, if_neg htn, pyStrip_fix hh hr, collapse_fix _ hso hnd]
      exact filter_charOk_of_noNulBom hnb

/-- C6 (amended): clean_text maps empty input to empty and its output
never contains NUL or BOM characters; for every input free of NUL and
BOM, clean_text is idempotent and its output is a single-line string
with whitespace runs collapsed to one blank and both ends trimmed. (The
whitespace guarantees and idempotence are restricted to NUL/BOM-free
inputs: the source deletes NUL/BOM only after collapsing and trimming.) -/
theorem C6_clean_text_normalizer (s : List Char) :
    clean_text [] = [] ∧
    noNulBom (clean_text s) = true ∧
    (noNulBom s = true →
      clean_text (clean_text s) = clean_text s ∧
      isNormalizedText (clean_text s) = true) :=
  ⟨rfl, clean_text_noNulBom s, fun h => ⟨clean_text_idem_aux h, clean_text_normalized h⟩⟩

/-- C6 counterexample: on the input of letter a, blank, NUL, clean_text
collapses and trims before deleting the NUL, leaving a trailing blank;
the output is not trimmed and normalizing it again changes it, so the
claimed unconditional idempotence and trimmed-output shape are false. -/
theorem C6_counterexample :
    clean_text (clean_text ['a', ' ', Char.ofNat 0]) ≠ clean_text ['a', ' ', Char.ofNat 0] := by
  decide

/-- C6 witness: the amended theorem applied at a concrete NUL/BOM-free
input with mixed whitespace. -/
theorem C6_witness :
    noNulBom " Текст\n\tдокумента ".data = true ∧
    clean_text (clean_text " Текст\n\tдокумента ".data) =
      clean_text " Текст\n\tдокумента ".data ∧
    isNormalizedText (clean_text " Текст\n\tдокумента ".data) = true :=
  ⟨by decide,
   ((C6_clean_text_normalizer " Текст\n\tдокумента ".data).2.2 (by decide)).1,
   ((C6_clean_text_normalizer " Текст\n\tдокумента ".data).2.2 (by decide)).2⟩

/-- C7: determine_document_type always yields one of the seven fixed
categories; a URL hitting none of the rules gets the generic default;
the result is exactly the first-match lookup over the ordered rule
table (so when two rules match, the earlier-priority rule wins), and on
the collision URL /gost/prikaz the earlier GOST rule beats the order
rule. -/
theorem C7_classifier (url : List Char) :
    determine_document_type url ∈ ["ГОСТ".data, "Федеральный закон".data, "Приказ".data,
      "Постановление".data, "СНиП".data, "СП".data, "Документ".data] ∧
    ((∀ r ∈ docTypeRules, ruleHit (lowerList url) r = false) →
      determine_document_type url = "Документ".data) ∧
    determine_document_type url =
      (((docTypeRules.find? (ruleHit (lowerList url))).map Prod.snd).getD "Документ".data) ∧
    determine_document_type "/gost/prikaz".data = "ГОСТ".data := by
  have hchar : determine_document_type url =
      (((docTypeRules.find? (ruleHit (lowerList url))).map Prod.snd).getD "Документ".data) := by
    simp only [determine_document_type, docTypeRules, ruleHit]
    cases hg : containsSub (lowerList url) "/gost".data <;>
    cases hst : containsSub (lowerList url) "/standart".data <;>
    cases hfz : containsSub (lowerList url) "/federalnyj-zakon".data <;>
    cases hpr : containsSub (lowerList url) "/prikaz".data <;>
    cases hpo : containsSub (lowerList url) "/postanovlenie".data <;>
    cases hsn : containsSub (lowerList url) "/snip".data <;>
    cases hsp2 : containsSub (lowerList url) "/sp".data <;>
    simp [List.find?, ruleHit, hg, hst, hfz, hpr, hpo, hsn, hsp2]
  refine ⟨?_, ?_, hchar, by decide⟩
  · rw [hchar]
    cases hf : docTypeRules.find? (ruleHit (lowerList url)) with
    | none => simp
    | some r =>
      have hr := List.mem_of_find?_eq_some hf
      fin_cases hr <;> simp
  · intro hall
    rw [hchar, List.find?_eq_none.mpr (fun x hx => by simp [hall x hx])]
    rfl

/-- C7 witness: the no-rule-matches conjunct applied at a concrete
unclassified URL. -/
theorem C7_witness :
    (∀ r ∈ docTypeRules, ruleHit (lowerList "/abc".data) r = false) ∧
    determine_document_type "/abc".data = "Документ".data :=
  ⟨by decide, (C7_classifier "/abc".data).2.1 (by decide)⟩

/-- C9: extract_metadata's status is determined with the active token
checked first: text containing both the active and the revoked token is
active; text containing none of the three tokens is undetermined; the
status is always exactly one of the three fixed values. -/
theorem C9_status_fixed_precedence (t : List Char) :
    (containsSub (lowerList t) "действует".data = true →
      containsSub (lowerList t) "отменен".data = true →
      status_of_text t = "Действует".data) ∧
    (containsSub (lowerList t) "действует".data = false →
      containsSub (lowerList t) "отменен".data = false →
      containsSub (lowerList t) "утратил силу".data = false →
      status_of_text t = "Не определен".data) ∧
    (status_of_text t = "Действует".data ∨ status_of_text t = "Не действует".data ∨
      status_of_text t = "Не определен".data) := by
  refine ⟨fun h1 _ => by simp [status_of_text, h1],
    fun h1 h2 h3 => by simp [status_of_text, h1, h2, h3], ?_⟩
  rw [status_of_text]
  split_ifs <;> simp

/-- C9 witness: a text containing both tokens resolves to active. -/
theorem C9_witness :
    containsSub (lowerList "Статус: действует. Прежний документ отменен.".data)
      "действует".data = true ∧
    containsSub (lowerList "Статус: действует. Прежний документ отменен.".data)
      "отменен".data = true ∧
    status_of_text "Статус: действует. Прежний документ отменен.".data = "Действует".data :=
  ⟨by decide, by decide,
   (C9_status_fixed_precedence "Статус: действует. Прежний документ отменен.".data).1
     (by decide) (by decide)⟩

/-- C10: because the active check is a plain substring test evaluated
first, any text whose lowercased form contains the active token — even
inside the negated phrase "не действует" — is classified active, and
the inactive outcome is reachable exactly when the active token is
absent and one of the two inactive tokens is present. -/
theorem C10_negated_phrase_active (t : List Char) :
    (containsSub (lowerList t) "действует".data = true →
      status_of_text t = "Действует".data) ∧
    status_of_text "не действует".data = "Действует".data ∧
    (status_of_text t = "Не действует".data ↔
      containsSub (lowerList t) "действует".data = false ∧
      (containsSub (lowerList t) "отменен".data = true ∨
       containsSub (lowerList t) "утратил силу".data = true)) := by
  refine ⟨fun h1 => by simp [status_of_text, h1], by decide, ?_⟩
  rw [status_of_text]
  split_ifs with h1 h2
  · constructor
    · intro he
      exact absurd he (by decide)
    · rintro ⟨ha, _⟩
      rw [h1] at ha
      cases ha
  · constructor
    · intro _
      exact ⟨by simpa using h1, by simpa [Bool.or_eq_true] using h2⟩
    · intro _
      rfl
  · constructor
    · intro he
      exact absurd he (by decide)
    · rintro ⟨_, hb⟩
      rcases hb with hb | hb <;> simp [hb] at h2

theorem noDigit_all {s : List Char} (h : noDigitStr s = true) :
    ∀ c ∈ s, c.isDigit = false := by
  intro c hc
  have h2 := (List.all_eq_true.mp h) c hc
  simpa using h2

theorem noDigit_of_sublist {s t : List Char} (hsub : t.Sublist s)
    (h : noDigitStr s = true) : noDigitStr t = true := by
  rw [noDigitStr, List.all_eq_true]
  intro c hc
  have h2 := (List.all_eq_true.mp h) c (hsub.subset hc)
  simpa using h2

theorem takeWhile_digits_nil {r : List Char} (h : noDigitStr r = true) :
    r.takeWhile Char.isDigit = [] := by
  cases r with
  | nil => rfl
  | cons c cs =>
    have hc : c.isDigit = false := noDigit_all h c (by simp)
    simp [List.takeWhile_cons, hc]

theorem m_num1_noDigit : ∀ {s : List Char}, noDigitStr s = true → m_num1 s = none := by
  intro s h
  cases s with
  | nil => rfl
  | cons c rest =>
    rw [m_num1]
    by_cases hc : c = '№'
    · rw [if_pos hc]
      have h1 : noDigitStr (rest.dropWhile isPySpace) = true :=
        noDigit_of_sublist ((List.dropWhile_sublist _).trans (List.sublist_cons_self c rest)) h
      simp [takeWhile_digits_nil h1]
    · rw [if_neg hc]

theorem m_pair45_noDigit {s : List Char} (h : noDigitStr s = true) : m_pair45 s = none := by
  rw [m_pair45, takeWhile_digits_nil h]
  simp

theorem m_numCore_noDigit {s : List Char} (h : noDigitStr s = true) : m_numCore s = none := by
  rw [m_numCore, takeWhile_digits_nil h]
  simp

theorem stripLit_noDigit {lit s r : List Char} (he : stripLit lit s = some r)
    (h : noDigitStr s = true) : noDigitStr r = true := by
  rw [stripLit] at he
  by_cases hs : startsWithB s lit = true
  · rw [if_pos hs] at he
    obtain rfl := Option.some.inj he
    exact noDigit_of_sublist (List.drop_sublist _ _) h
  · rw [if_neg hs] at he
    cases he

theorem dropSpaces1_noDigit {s r : List Char} (he : dropSpaces1 s = some r)
    (h : noDigitStr s = true) : noDigitStr r = true := by
  cases s with
  | nil => simp [dropSpaces1] at he
  | cons c rest =>
    rw [dropSpaces1] at he
    by_cases hc : isPySpace c = true
    · rw [if_pos hc] at he
      obtain rfl := Option.some.inj he
      exact noDigit_of_sublist
        ((List.dropWhile_sublist _).trans (List.sublist_cons_self _ _)) h
    · rw [if_neg hc] at he
      cases he

theorem m_gost_noDigit {s : List Char} (h : noDigitStr s = true) : m_gost s = none := by
  rw [m_gost]
  cases hs1 : stripLit "ГОСТ".data s with
  | none => rfl
  | some r1 =>
    have h1 := stripLit_noDigit hs1 h
    cases hs2 : dropSpaces1 r1 with
    | none => simp [hs2]
    | some r2 =>
      have h2 := dropSpaces1_noDigit hs2 h1
      cases r2 with
      | nil => simp [hs2, m_numCore_noDigit (show noDigitStr [] = true from rfl)]
      | cons a rest =>
        have ha : noDigitStr (rest.dropWhile isPySpace) = true :=
          noDigit_of_sublist
            ((List.dropWhile_sublist _).trans (List.sublist_cons_self _ _)) h2
        have hb : noDigitStr ((a :: rest).dropWhile isPySpace) = true :=
          noDigit_of_sublist (List.dropWhile_sublist _) h2
        by_cases hc : a = 'Р'
        · simp [hs2, hc, m_numCore_noDigit ha]
        · simp [hs2, hc, m_numCore_noDigit hb]

theorem m_sp_noDigit {s : List Char} (h : noDigitStr s = true) : m_sp s = none := by
  rw [m_sp]
  cases hs1 : stripLit "СП".data s with
  | none => rfl
  | some r1 =>
    have h1 := stripLit_noDigit hs1 h
    cases hs2 : dropSpaces1 r1 with
    | none => simp [hs2]
    | some r2 =>
      have h2 := dropSpaces1_noDigit hs2 h1
      simp [hs2, takeWhile_digits_nil h2]

theorem m_snip_noDigit {s : List Char} (h : noDigitStr s = true) : m_snip s = none := by
  rw [m_snip]
  cases hs1 : stripLit "СНиП".data s with
  | none => rfl
  | some r1 =>
    have h1 := stripLit_noDigit hs1 h
    cases hs2 : dropSpaces1 r1 with
    | none => simp [hs2]
    | some r2 => simp [hs2, m_numCore_noDigit (dropSpaces1_noDigit hs2 h1)]

theorem digitsThen_noDigit {sep : Char} {s : List Char} (h : noDigitStr s = true) :
    digitsThen sep s = none := by
  rw [digitsThen, takeWhile_digits_nil h]
  simp

theorem m_triple_noDigit {s : List Char} (h : noDigitStr s = true) : m_triple s = none := by
  rw [m_triple, digitsThen_noDigit h]

theorem m_dashPair_noDigit {s : List Char} (h : noDigitStr s = true) : m_dashPair s = none := by
  rw [m_dashPair, digitsThen_noDigit h]

theorem searchFirst_none {m : List Char → Option (List Char)}
    (hm : ∀ t, noDigitStr t = true → m t = none) :
    ∀ s, noDigitStr s = true → searchFirst m s = none
  | [], h => by
    rw [searchFirst]
    exact hm [] h
  | c :: rest, h => by
    have h1 := hm _ h
    have h2 := searchFirst_none hm rest
      (noDigit_of_sublist (List.sublist_cons_self _ _) h)
    simp [searchFirst, h1, h2]

theorem combined_noDigit {url title : List Char} (ht : noDigitStr title = true)
    (hu : noDigitStr url = true) : noDigitStr (title ++ ' ' :: url) = true := by
  rw [noDigitStr, List.all_eq_true]
  intro c hc
  rcases List.mem_append.mp hc with h | h
  · simpa using (List.all_eq_true.mp ht) c h
  · rcases List.mem_cons.mp h with rfl | h
    · decide
    · simpa using (List.all_eq_true.mp hu) c h

theorem extract_document_number_noDigit {url title : List Char}
    (ht : noDigitStr title = true) (hu : noDigitStr url = true) :
    extract_document_number url title = none := by
  have hc := combined_noDigit ht hu
  simp only [extract_document_number]
  rw [searchFirst_none (fun _ h => m_num1_noDigit h) _ hc,
      searchFirst_none (fun _ h => m_pair45_noDigit h) _ hc,
      searchFirst_none (fun _ h => m_gost_noDigit h) _ hc,
      searchFirst_none (fun _ h => m_sp_noDigit h) _ hc,
      searchFirst_none (fun _ h => m_snip_noDigit h) _ hc,
      searchFirst_none (fun _ h => m_triple_noDigit h) _ hc,
      searchFirst_none (fun _ h => m_dashPair_noDigit h) _ hc]
  rfl

/-- C8: extract_document_number tries its fixed ordered pattern list over
the title-then-URL concatenation and returns the first capture found
anywhere: the GOST title yields its number, and any title/URL pair with
no digit at all yields none (absent, never an exception). -/
theorem C8_number_extractor (url title : List Char) :
    extract_document_number "/mega_doc/fire/gost".data "ГОСТ Р 12345-67".data =
      some "12345-67".data ∧
    (noDigitStr title = true → noDigitStr url = true →
      extract_document_number url title = none) :=
  ⟨by decide, fun ht hu => extract_document_number_noDigit ht hu⟩

/-- C8 witness: the no-digit conjunct applied at a concrete digit-free
title/URL pair. -/
theorem C8_witness :
    noDigitStr "привет мир".data = true ∧ noDigitStr "/abc".data = true ∧
    extract_document_number "/abc".data "привет мир".data = none :=
  ⟨by decide, by decide,
   (C8_number_extractor "/abc".data "привет мир".data).2 (by decide) (by decide)⟩

/-- C1: for every URL passing the fixed-origin check, detail retrieval is
total: a fetch failure is captured into the error-status detail shape
(an error message carrying the fixed prefix, the input url, the
timestamp, returned with 500), and success yields the success-status
record with title, sections, metadata, url and timestamp (returned with
200); a nonempty URL failing the origin check is rejected with the
invalid-origin validation error. -/
theorem C1_detail_total (fetchPage : List Char → Except (List Char) Node)
    (url now : List Char) :
    (startsWithB url sourceOrigin = true →
      (∀ e, fetchPage url = .error e →
        route_get_document fetchPage (some url) now =
          .detail (.error (errPrefix ++ e) url now) 500) ∧
      (∀ soup, fetchPage url = .ok soup →
        route_get_document fetchPage (some url) now =
          .detail (.success (extract_title soup) (extract_content_sections soup)
            (extract_metadata (stripNoise soup) (extract_title soup)) url now) 200)) ∧
    (url ≠ [] → startsWithB url sourceOrigin = false →
      route_get_document fetchPage (some url) now = .validation invalidOriginMsg 400) := by
  constructor
  · intro h
    have hne : url ≠ [] := by
      intro he
      rw [he] at h
      exact absurd h (by decide)
    constructor
    · intro e hfe
      simp [route_get_document, hne, h, get_document_details, hfe]
    · intro soup hfs
      simp [route_get_document, hne, h, get_document_details, hfs]
  · intro hne h
    simp [route_get_document, hne, h]

/-- C1 witness: the captured-fetch-failure conjunct at a concrete
in-origin URL and a failing fetch. -/
theorem C1_witness :
    startsWithB "https://meganorm.ru/doc".data sourceOrigin = true ∧
    route_get_document (fun _ => Except.error "boom".data)
      (some "https://meganorm.ru/doc".data) "2024-01-01T00:00:00".data =
      .detail (.error (errPrefix ++ "boom".data) "https://meganorm.ru/doc".data
        "2024-01-01T00:00:00".data) 500 :=
  ⟨by decide,
   ((C1_detail_total (fun _ => Except.error "boom".data) "https://meganorm.ru/doc".data
      "2024-01-01T00:00:00".data).1 (by decide)).1 "boom".data rfl⟩

theorem dedupLinks_sublist : ∀ (seen : List (List Char)) (ls : List Link),
    (dedupLinks seen ls).Sublist ls
  | _, [] => List.Sublist.refl _
  | seen, l :: ls => by
    cases hl : l.href with
    | none =>
      simp only [dedupLinks, hl]
      exact (dedupLinks_sublist seen ls).trans (List.sublist_cons_self _ _)
    | some h =>
      simp only [dedupLinks, hl]
      by_cases hc : h ≠ [] ∧ h ∉ seen ∧ endsWithB h paginatorSuffix = false
      · rw [if_pos hc]
        exact (dedupLinks_sublist (h :: seen) ls).cons₂ _
      · rw [if_neg hc]
        exact (dedupLinks_sublist seen ls).trans (List.sublist_cons_self _ _)

theorem dedupLinks_href_ok : ∀ (seen : List (List Char)) (ls : List Link) (l : Link),
    l ∈ dedupLinks seen ls → ∃ h, l.href = some h ∧ h ≠ [] ∧ h ∉ seen ∧
      endsWithB h paginatorSuffix = false
  | _, [], l, hm => absurd hm (by simp [dedupLinks])
  | seen, l0 :: ls, l, hm => by
    cases hl : l0.href with
    | none =>
      simp only [dedupLinks, hl] at hm
      exact dedupLinks_href_ok seen ls l hm
    | some h0 =>
      simp only [dedupLinks, hl] at hm
      by_cases hc : h0 ≠ [] ∧ h0 ∉ seen ∧ endsWithB h0 paginatorSuffix = false
      · rw [if_pos hc] at hm
        rcases List.mem_cons.mp hm with rfl | hm2
        · exact ⟨h0, hl, hc.1, hc.2.1, hc.2.2⟩
        · obtain ⟨h, h1, h2, h3, h4⟩ := dedupLinks_href_ok (h0 :: seen) ls l hm2
          exact ⟨h, h1, h2, fun hmem => h3 (List.mem_cons_of_mem _ hmem), h4⟩
      · rw [if_neg hc] at hm
        exact dedupLinks_href_ok seen ls l hm

theorem dedupLinks_pairwise : ∀ (seen : List (List Char)) (ls : List Link),
    (dedupLinks seen ls).Pairwise (fun a b => a.href ≠ b.href)
  | _, [] => List.Pairwise.nil
  | seen, l0 :: ls => by
    cases hl : l0.href with
    | none =>
      simp only [dedupLinks, hl]
      exact dedupLinks_pairwise seen ls
    | some h0 =>
      simp only [dedupLinks, hl]
      by_cases hc : h0 ≠ [] ∧ h0 ∉ seen ∧ endsWithB h0 paginatorSuffix = false
      · rw [if_pos hc]
        refine List.pairwise_cons.mpr ⟨?_, dedupLinks_pairwise (h0 :: seen) ls⟩
        intro b hb
        obtain ⟨h, h1, _, h3, _⟩ := dedupLinks_href_ok (h0 :: seen) ls b hb
        rw [hl, h1]
        intro he
        obtain rfl := Option.some.inj he
        exact h3 (by simp)
      · rw [if_neg hc]
        exact dedupLinks_pairwise seen ls

theorem pairwise_filterMap_of {α β : Type} (f : α → Option β) {R : β → β → Prop}
    {S : α → α → Prop} : ∀ (l : List α), l.Pairwise S →
    (∀ a b x y, S a b → f a = some x → f b = some y → R x y) →
    (l.filterMap f).Pairwise R
  | [], _, _ => by simp
  | a :: l, hp, himp => by
    obtain ⟨h1, h2⟩ := List.pairwise_cons.mp hp
    rw [List.filterMap_cons]
    cases hf : f a with
    | none => exact pairwise_filterMap_of f l h2 himp
    | some x =>
      refine List.pairwise_cons.mpr ⟨?_, pairwise_filterMap_of f l h2 himp⟩
      intro y hy
      obtain ⟨b, hb, hfb⟩ := List.mem_filterMap.mp hy
      exact himp a b x y (h1 b hb) hf hfb

theorem extract_info_href {resolve : List Char → List Char} {link : Link}
    {d : DocumentSummary}
    (he : extract_document_info_from_link resolve link = some d) :
    link.href = some d.relative_url := by
  cases hl : link.href with
  | none =>
    simp only [extract_document_info_from_link, hl] at he
    cases he
  | some href =>
    simp only [extract_document_info_from_link, hl] at he
    by_cases hc : clean_text link.text = [] ∨ (clean_text link.text).length < 3
    · rw [if_pos hc] at he
      cases he
    · rw [if_neg hc] at he
      obtain rfl := Option.some.inj he
      rfl

/-- C4: in one discovery pass, deduplication preserves first-seen order
(the kept links form a sublist of the input), no two emitted summaries
share a relative_url, no emitted relative_url ends with the
paginator-marker suffix, and at most 100 candidates are processed so at
most 100 summaries are emitted regardless of page size. -/
theorem C4_discovery (resolve : List Char → List Char) (links : List Link) :
    (dedupLinks [] links).Sublist links ∧
    (parse_document_list resolve links).Pairwise
      (fun a b => a.relative_url ≠ b.relative_url) ∧
    (∀ d ∈ parse_document_list resolve links,
      endsWithB d.relative_url paginatorSuffix = false) ∧
    (parse_document_list resolve links).length ≤ 100 := by
  refine ⟨dedupLinks_sublist [] links, ?_, ?_, ?_⟩
  · rw [parse_document_list]
    have hp : ((dedupLinks [] links).take 100).Pairwise (fun a b => a.href ≠ b.href) :=
      List.Pairwise.sublist (List.take_sublist _ _) (dedupLinks_pairwise [] links)
    refine pairwise_filterMap_of _ _ hp ?_
    intro a b x y hS hfa hfb
    have h1 := extract_info_href hfa
    have h2 := extract_info_href hfb
    intro he
    apply hS
    rw [h1, h2, he]
  · intro d hd
    rw [parse_document_list] at hd
    obtain ⟨link, hlink, hf⟩ := List.mem_filterMap.mp hd
    have hmem : link ∈ dedupLinks [] links := (List.take_sublist _ _).subset hlink
    obtain ⟨h, h1, _, _, h4⟩ := dedupLinks_href_ok [] links link hmem
    have h5 := extract_info_href hf
    rw [h1] at h5
    obtain rfl := Option.some.inj h5
    exact h4
  · rw [parse_document_list]
    exact le_trans (List.length_filterMap_le _ _) (List.length_take_le _ _)

/-- C4 witness: the paginator-exclusion conjunct applied to the summary
emitted for a concrete candidate list with a duplicate and a paginator
link. -/
theorem C4_witness :
    demoSummary ∈ parse_document_list demoResolve demoLinks ∧
    endsWithB demoSummary.relative_url paginatorSuffix = false :=
  ⟨by decide, (C4_discovery demoResolve demoLinks).2.2.1 demoSummary (by decide)⟩

theorem insertByRel_perm (x : DocumentSummary × Nat) :
    ∀ l : List (DocumentSummary × Nat), (insertByRel x l).Perm (x :: l)
  | [] => List.Perm.refl _
  | y :: ys => by
    rw [insertByRel]
    by_cases hc : y.2 ≤ x.2
    · rw [if_pos hc]
    · rw [if_neg hc]
      exact ((insertByRel_perm x ys).cons y).trans (List.Perm.swap x y ys)

theorem sortByRelevance_perm : ∀ l, (sortByRelevance l).Perm l
  | [] => List.Perm.refl _
  | x :: xs =>
    (insertByRel_perm x (sortByRelevance xs)).trans ((sortByRelevance_perm xs).cons x)

theorem insertByRel_sorted (x : DocumentSummary × Nat) :
    ∀ {l}, l.Pairwise (fun a b : DocumentSummary × Nat => b.2 ≤ a.2) →
    (insertByRel x l).Pairwise (fun a b => b.2 ≤ a.2)
  | [], _ => by simp [insertByRel]
  | y :: ys, hp => by
    obtain ⟨h1, h2⟩ := List.pairwise_cons.mp hp
    rw [insertByRel]
    by_cases hc : y.2 ≤ x.2
    · rw [if_pos hc]
      refine List.pairwise_cons.mpr ⟨?_, hp⟩
      intro b hb
      rcases List.mem_cons.mp hb with rfl | hb2
      · exact hc
      · exact le_trans (h1 b hb2) hc
    · rw [if_neg hc]
      refine List.pairwise_cons.mpr ⟨?_, insertByRel_sorted x h2⟩
      intro b hb
      have hmem := (insertByRel_perm x ys).mem_iff.mp hb
      rcases List.mem_cons.mp hmem with rfl | hb2
      · omega
      · exact h1 b hb2

theorem sortByRelevance_sorted : ∀ l,
    (sortByRelevance l).Pairwise (fun a b : DocumentSummary × Nat => b.2 ≤ a.2)
  | [] => List.Pairwise.nil
  | x :: xs => insertByRel_sorted x (sortByRelevance_sorted xs)

theorem insertByRel_filter (x : DocumentSummary × Nat) (r : Nat) :
    ∀ l, (insertByRel x l).filter (fun p => p.2 == r) =
      if x.2 == r then x :: l.filter (fun p => p.2 == r)
      else l.filter (fun p => p.2 == r)
  | [] => by by_cases hx : x.2 == r <;> simp [insertByRel, List.filter, hx]
  | y :: ys => by
    rw [insertByRel]
    by_cases hc : y.2 ≤ x.2
    · rw [if_pos hc]
      by_cases hx : x.2 == r <;> simp [List.filter_cons, hx]
    · rw [if_neg hc]
      have ih := insertByRel_filter x r ys
      by_cases hy : y.2 == r
      · have hyr : y.2 = r := by simpa using hy
        have hx : (x.2 == r) = false := by
          have hlt : x.2 < y.2 := by omega
          have : x.2 ≠ r := by omega
          simp [this]
        rw [hx] at ih
        simp [List.filter_cons, hy, hx, ih]
      · by_cases hx : x.2 == r
        · rw [hx] at ih
          simp [List.filter_cons, hy, hx, ih]
        · have hx' : (x.2 == r) = false := by simpa using hx
          rw [hx'] at ih
          simp [List.filter_cons, hy, hx', ih]

theorem sortByRelevance_filter (r : Nat) : ∀ l,
    (sortByRelevance l).filter (fun p => p.2 == r) = l.filter (fun p => p.2 == r)
  | [] => rfl
  | x :: xs => by
    rw [sortByRelevance, insertByRel_filter x r (sortByRelevance xs),
      sortByRelevance_filter r xs]
    by_cases hx : x.2 == r <;> simp [List.filter_cons, hx]

theorem take_min_len {α : Type} (l : List α) (n : Nat) :
    l.take (min n l.length) = l.take n := by
  rw [List.take_eq_take]
  omega

/-- C5: the search core keeps exactly the summaries whose lowercased
title contains the lowercased query (relevance = the non-overlapping
occurrence count), sorts them descending by relevance with a stable
sort (ties keep discovery order: for every relevance value the filtered
subsequence is unchanged), and returns at most 100 results — the
truncation of the sorted list to its first 100 entries. -/
theorem C5_search_rank (query : List Char) (docs : List DocumentSummary) :
    (search_documents_core query docs).length ≤ 100 ∧
    search_documents_core query docs =
      (sortByRelevance (search_filter (lowerList query) docs)).take 100 ∧
    (sortByRelevance (search_filter (lowerList query) docs)).Perm
      (search_filter (lowerList query) docs) ∧
    (sortByRelevance (search_filter (lowerList query) docs)).Pairwise
      (fun a b => b.2 ≤ a.2) ∧
    (∀ r : Nat, (sortByRelevance (search_filter (lowerList query) docs)).filter
        (fun p => p.2 == r) =
      (search_filter (lowerList query) docs).filter (fun p => p.2 == r)) ∧
    (∀ d r, (d, r) ∈ search_documents_core query docs →
      containsSub (lowerList d.title) (lowerList query) = true ∧
      r = countOcc (lowerList d.title) (lowerList query)) := by
  have heq : search_documents_core query docs =
      (sortByRelevance (search_filter (lowerList query) docs)).take 100 := by
    rw [search_documents_core, take_min_len]
  refine ⟨?_, heq, sortByRelevance_perm _, sortByRelevance_sorted _,
    fun r => sortByRelevance_filter r _, ?_⟩
  · rw [heq]
    exact List.length_take_le _ _
  · intro d r hm
    rw [heq] at hm
    have hm2 : (d, r) ∈ sortByRelevance (search_filter (lowerList query) docs) :=
      (List.take_sublist _ _).subset hm
    have hm3 : (d, r) ∈ search_filter (lowerList query) docs :=
      (sortByRelevance_perm _).mem_iff.mp hm2
    simp only [search_filter, List.mem_filterMap] at hm3
    obtain ⟨a, _, hfa⟩ := hm3
    by_cases hc : containsSub (lowerList a.title) (lowerList query) = true
    · rw [if_pos hc] at hfa
      rw [Option.some.injEq, Prod.mk.injEq] at hfa
      obtain ⟨rfl, rfl⟩ := hfa
      exact ⟨hc, rfl⟩
    · rw [if_neg hc] at hfa
      cases hfa

/-- C5 witness: the membership characterization applied to the top hit of
the ranking example. -/
theorem C5_witness :
    (fireAnnexDoc, 2) ∈ search_documents_core "fire".data searchDemoDocs ∧
    containsSub (lowerList fireAnnexDoc.title) (lowerList "fire".data) = true ∧
    2 = countOcc (lowerList fireAnnexDoc.title) (lowerList "fire".data) :=
  ⟨by decide,
   ((C5_search_rank "fire".data searchDemoDocs).2.2.2.2.2 fireAnnexDoc 2 (by decide)).1,
   ((C5_search_rank "fire".data searchDemoDocs).2.2.2.2.2 fireAnnexDoc 2 (by decide)).2⟩

theorem stripNoiseList_append : ∀ a b : List Node,
    stripNoiseList (a ++ b) = stripNoiseList a ++ stripNoiseList b := by
  intro a b
  induction a with
  | nil => simp [stripNoiseList]
  | cons c rest ih => simp [stripNoiseList, ih]

mutual

theorem stripNoise_idem : ∀ n, stripNoise (stripNoise n) = stripNoise n
  | .text _ => rfl
  | .elem name cls cs => by simp [stripNoise, stripNoiseList_idem cs]

theorem stripKeep_idem : ∀ n, stripNoiseList (stripKeep n) = stripKeep n
  | .text s => by simp [stripKeep, stripNoiseList]
  | .elem name cls cs => by
    by_cases h : isNoiseName name
    · simp [stripKeep, h, stripNoiseList]
    · simp [stripKeep, h, stripNoiseList, stripNoiseList_idem cs]

theorem stripNoiseList_idem : ∀ cs, stripNoiseList (stripNoiseList cs) = stripNoiseList cs
  | [] => rfl
  | c :: rest => by
    rw [stripNoiseList, stripNoiseList_append, stripKeep_idem c, stripNoiseList_idem rest]

end

theorem extract_noise_independent (soup : Node) :
    extract_content_sections soup = extract_content_sections (stripNoise soup) := by
  simp only [extract_content_sections, stripNoise_idem]

theorem treeCleanList_append : ∀ {a b : List Node}, treeCleanList a = true →
    treeCleanList b = true → treeCleanList (a ++ b) = true
  | [], b, _, hb => by simpa [treeCleanList] using hb
  | c :: a, b, ha, hb => by
    have h2 : treeClean c = true ∧ treeCleanList a = true := by
      simpa [treeCleanList, Bool.and_eq_true] using ha
    simpa [treeCleanList, Bool.and_eq_true] using
      And.intro h2.1 (treeCleanList_append h2.2 hb)

mutual

theorem treeClean_textStrings : ∀ n, treeClean n = true →
    ∀ s ∈ textStrings n, noNulBom s = true
  | .text t => by
    intro h s hs
    simp [textStrings] at hs
    subst hs
    simpa [treeClean] using h
  | .elem nm cls cs => by
    intro h s hs
    exact treeClean_textStringsList cs (by simpa [treeClean] using h) s
      (by simpa [textStrings] using hs)

theorem treeClean_textStringsList : ∀ cs, treeCleanList cs = true →
    ∀ s ∈ textStringsList cs, noNulBom s = true
  | [] => by intro _ s hs; simp [textStringsList] at hs
  | c :: cs => by
    intro h s hs
    have h2 : treeClean c = true ∧ treeCleanList cs = true := by
      simpa [treeCleanList, Bool.and_eq_true] using h
    rcases List.mem_append.mp (by simpa [textStringsList] using hs) with h3 | h3
    · exact treeClean_textStrings c h2.1 s h3
    · exact treeClean_textStringsList cs h2.2 s h3

end

mutual

theorem treeClean_withParents : ∀ (pn : List Char) (n : Node), treeClean n = true →
    ∀ q ∈ withParents pn n, treeClean q.2 = true
  | pn, .text t => by
    intro h q hq
    simp [withParents] at hq
    subst hq
    simpa [treeClean] using h
  | pn, .elem nm cls cs => by
    intro h q hq
    rcases List.mem_cons.mp (by simpa [withParents] using hq) with rfl | h2
    · exact h
    · exact treeClean_withParentsList nm cs (by simpa [treeClean] using h) q h2

theorem treeClean_withParentsList : ∀ (pn : List Char) (cs : List Node),
    treeCleanList cs = true → ∀ q ∈ withParentsList pn cs, treeClean q.2 = true
  | _, [] => by intro _ q hq; simp [withParentsList] at hq
  | pn, c :: cs => by
    intro h q hq
    have h2 : treeClean c = true ∧ treeCleanList cs = true := by
      simpa [treeCleanList, Bool.and_eq_true] using h
    rcases List.mem_append.mp (by simpa [withParentsList] using hq) with h3 | h3
    · exact treeClean_withParents pn c h2.1 q h3
    · exact treeClean_withParentsList pn cs h2.2 q h3

end

theorem treeClean_descendants {mc : Node} (h : treeClean mc = true) :
    ∀ q ∈ descendantsWP mc, treeClean q.2 = true := by
  cases mc with
  | text s => intro q hq; simp [descendantsWP] at hq
  | elem nm cls cs =>
    intro q hq
    exact treeClean_withParentsList nm cs (by simpa [treeClean] using h) q
      (by simpa [descendantsWP] using hq)

mutual

theorem nodeString_mem : ∀ (n : Node) (s : List Char), nodeString n = some s →
    s ∈ textStrings n
  | .text t, s => by
    intro h
    simp [nodeString] at h
    simp [textStrings, h]
  | .elem nm cls cs, s => by
    intro h
    have h2 := singleString_mem cs s (by simpa [nodeString] using h)
    simpa [textStrings] using h2

theorem singleString_mem : ∀ (cs : List Node) (s : List Char), singleString cs = some s →
    s ∈ textStringsList cs
  | [], s => by intro h; simp [singleString] at h
  | [c], s => by
    intro h
    have h2 := nodeString_mem c s (by simpa [singleString] using h)
    simpa [textStringsList] using h2
  | a :: b :: rest, s => by intro h; simp [singleString] at h

end

theorem treeClean_nodeString {n : Node} {s : List Char} (h : treeClean n = true)
    (hns : nodeString n = some s) : noNulBom s = true :=
  treeClean_textStrings n h s (nodeString_mem n s hns)

mutual

theorem treeClean_stripNoise : ∀ n, treeClean n = true → treeClean (stripNoise n) = true
  | .text t => by
    intro h
    simpa [stripNoise, treeClean] using h
  | .elem nm cls cs => by
    intro h
    simpa [stripNoise, treeClean] using
      treeClean_stripNoiseList cs (by simpa [treeClean] using h)

theorem treeClean_stripKeep : ∀ n, treeClean n = true → treeCleanList (stripKeep n) = true
  | .text t => by
    intro h
    have h2 : noNulBom t = true := by simpa [treeClean] using h
    simpa [stripKeep, treeCleanList, treeClean, Bool.and_eq_true] using h2
  | .elem nm cls cs => by
    intro h
    by_cases hn : isNoiseName nm
    · simp [stripKeep, hn, treeCleanList]
    · have h2 := treeClean_stripNoiseList cs (by simpa [treeClean] using h)
      simpa [stripKeep, hn, treeCleanList, treeClean, Bool.and_eq_true] using h2

theorem treeClean_stripNoiseList : ∀ cs, treeCleanList cs = true →
    treeCleanList (stripNoiseList cs) = true
  | [] => by intro h; simpa [stripNoiseList] using h
  | c :: cs => by
    intro h
    have h2 : treeClean c = true ∧ treeCleanList cs = true := by
      simpa [treeCleanList, Bool.and_eq_true] using h
    rw [stripNoiseList]
    exact treeCleanList_append (treeClean_stripKeep c h2.1)
      (treeClean_stripNoiseList cs h2.2)

end

mutual

theorem treeClean_selNode : ∀ (sel : Sel) (n : Node) (e : Node), selNode sel n = some e →
    treeClean n = true → treeClean e = true
  | sel, .text t, e => by
    intro hs _
    cases sel <;> simp [selNode, selMatches] at hs
  | sel, .elem nm cls cs, e => by
    intro hs h
    by_cases hm : selMatches sel (.elem nm cls cs) = true
    · obtain rfl := Option.some.inj (by simpa [selNode, hm] using hs)
      exact h
    · exact treeClean_selFirst sel cs e (by simpa [selNode, hm] using hs)
        (by simpa [treeClean] using h)

theorem treeClean_selFirst : ∀ (sel : Sel) (cs : List Node) (e : Node),
    selFirst sel cs = some e → treeCleanList cs = true → treeClean e = true
  | _, [], e => by intro hs _; simp [selFirst] at hs
  | sel, c :: cs, e => by
    intro hs h
    have h2 : treeClean c = true ∧ treeCleanList cs = true := by
      simpa [treeCleanList, Bool.and_eq_true] using h
    cases hn : selNode sel c with
    | some r =>
      have hre : r = e := by simpa [selFirst, hn] using hs
      subst hre
      exact treeClean_selNode sel c r hn h2.1
    | none =>
      exact treeClean_selFirst sel cs e (by simpa [selFirst, hn] using hs) h2.2

end

theorem treeClean_selectOne {sel : Sel} {root e : Node} (hs : selectOne sel root = some e)
    (h : treeClean root = true) : treeClean e = true := by
  cases root with
  | text t => simp [selectOne] at hs
  | elem nm cls cs =>
    exact treeClean_selFirst sel cs e (by simpa [selectOne] using hs)
      (by simpa [treeClean] using h)

theorem treeClean_trySelectors : ∀ (sels : List Sel) (soup e : Node),
    trySelectors sels soup = some e → treeClean soup = true → treeClean e = true
  | [], _, e => by intro hs _; simp [trySelectors] at hs
  | sel :: rest, soup, e => by
    intro hs h
    cases ho : selectOne sel soup with
    | some r =>
      have hre : r = e := by simpa [trySelectors, ho] using hs
      subst hre
      exact treeClean_selectOne ho h
    | none =>
      exact treeClean_trySelectors rest soup e (by simpa [trySelectors, ho] using hs) h

theorem treeClean_selectContent {soup mc : Node} (hs : selectContent soup = some mc)
    (h : treeClean soup = true) : treeClean mc = true := by
  cases ht : trySelectors contentSelectors soup with
  | some e =>
    have hme : e = mc := by simpa [selectContent, ht] using hs
    subst hme
    exact treeClean_trySelectors _ _ _ ht h
  | none =>
    have hsel : selectOne (.byName "body".data) soup = some mc := by
      simpa [selectContent, ht] using hs
    exact treeClean_selectOne hsel h

theorem clean_text_ne {c : List Char} (h : noNulBom c = true) (hne : pyStrip c ≠ []) :
    clean_text c ≠ [] := by
  have hcne : c ≠ [] := by
    intro he
    subst he
    exact hne rfl
  rw [clean_text_eq_collapse h hcne]
  cases hps : pyStrip c with
  | nil => exact absurd hps hne
  | cons ch tl =>
    have hcns : isPySpace ch = false := by
      have h2 := pyStrip_head_ns c
      rw [hps] at h2
      simpa [headNotSpace] using h2
    obtain ⟨t, ht⟩ := collapse_head ch tl
    rw [ht, if_neg (by simp [hcns])]
    simp

theorem flushSection_good {st : SecState} (h : goodState st) :
    ∀ sec ∈ flushSection st, sec.content ≠ [] := by
  intro sec hs
  rw [flushSection] at hs
  by_cases hc : pyStrip st.curContent = []
  · rw [if_pos hc] at hs
    exact h.2 sec hs
  · rw [if_neg hc] at hs
    rcases List.mem_append.mp hs with h2 | h2
    · exact h.2 sec h2
    · have hse : sec = ⟨st.curTitle, clean_text st.curContent⟩ := by simpa using h2
      subst hse
      exact clean_text_ne h.1 hc

theorem appendString_good {st : SecState} {pn : List Char} {node : Node}
    (hn : treeClean node = true) (h : goodState st) :
    goodState (appendString st pn node) := by
  cases hns : nodeString node with
  | none => simpa [appendString, hns] using h
  | some s =>
    have hsnb : noNulBom s = true := treeClean_nodeString hn hns
    simp only [appendString, hns]
    by_cases h1 : s = []
    · rw [if_pos h1]; exact h
    · rw [if_neg h1]
      by_cases h2 : pn = "script".data ∨ pn = "style".data
      · rw [if_pos h2]; exact h
      · rw [if_neg h2]
        by_cases h3 : pyStrip s = []
        · rw [if_pos h3]; exact h
        · rw [if_neg h3]
          refine ⟨?_, h.2⟩
          rw [noNulBom, List.all_eq_true]
          intro ch hch
          rcases List.mem_append.mp hch with hm | hm
          · rcases List.mem_append.mp hm with hm2 | hm2
            · exact (List.all_eq_true.mp h.1) ch hm2
            · exact (List.all_eq_true.mp hsnb) ch (mem_of_mem_pyStrip hm2)
          · have hsp : ch = ' ' := by simpa using hm
            subst hsp
            decide

theorem stepSec_good {st : SecState} {pn : List Char} {node : Node}
    (hn : treeClean node = true) (h : goodState st) : goodState (stepSec st pn node) := by
  cases node with
  | text s => exact appendString_good hn h
  | elem nm cls cs =>
    simp only [stepSec]
    by_cases hh : isHeadingName nm = true
    · rw [if_pos hh]
      exact ⟨rfl, flushSection_good h⟩
    · rw [if_neg hh]
      exact appendString_good hn h

theorem foldl_stepSec_good : ∀ (l : List (List Char × Node)) (st : SecState),
    (∀ q ∈ l, treeClean q.2 = true) → goodState st →
    goodState (l.foldl (fun st q => stepSec st q.1 q.2) st)
  | [], _, _, h => h
  | q :: l, st, hq, h => by
    rw [List.foldl_cons]
    exact foldl_stepSec_good l _ (fun p hp => hq p (List.mem_cons_of_mem _ hp))
      (stepSec_good (hq q (by simp)) h)

theorem runSections_good {mc : Node} (h : treeClean mc = true) :
    ∀ sec ∈ runSections mc, sec.content ≠ [] := by
  rw [runSections]
  exact flushSection_good
    (foldl_stepSec_good _ _ (fun q hq => treeClean_descendants h q hq) ⟨rfl, by simp⟩)

theorem extract_sections_nonempty {soup : Node} (h : treeClean soup = true) :
    ∀ sec ∈ extract_content_sections soup, sec.content ≠ [] := by
  intro sec hs
  simp only [extract_content_sections] at hs
  have h2 : treeClean (stripNoise soup) = true := treeClean_stripNoise soup h
  cases hsel : selectContent (stripNoise soup) with
  | none => simp only [hsel] at hs; simp at hs
  | some mc =>
    simp only [hsel] at hs
    have hmc : treeClean mc = true := treeClean_selectContent hsel h2
    by_cases hhead : (findHeadings mc).isEmpty = true
    · rw [if_pos hhead] at hs
      by_cases hft : clean_text (getTextSep mc) = []
      · rw [if_pos hft] at hs
        simp at hs
      · rw [if_neg hft] at hs
        have hse : sec = ⟨docContentsTitle, clean_text (getTextSep mc)⟩ := by simpa using hs
        subst hse
        exact hft
    · rw [if_neg hhead] at hs
      exact runSections_good hmc sec hs

/-- C2 (amended): noise-element subtrees (script, style, nav, header,
footer, aside) are removed before any text is read — the output depends
only on the noise-stripped tree — and, whenever the tree's text nodes
are free of NUL and BOM characters, every emitted Section has non-empty
content. (The non-emptiness is restricted to NUL/BOM-free trees: a
section whose accumulated text consists solely of NUL/BOM characters
passes the raw strip-check yet normalizes to empty.) -/
theorem C2_sections_invariant (soup : Node) (sec : DocSection) :
    extract_content_sections soup = extract_content_sections (stripNoise soup) ∧
    (treeClean soup = true → sec ∈ extract_content_sections soup → sec.content ≠ []) :=
  ⟨extract_noise_independent soup, fun h hs => extract_sections_nonempty h sec hs⟩

/-- C2 counterexample: a body with an empty heading followed by a
BOM-only text node makes the state machine emit a section whose content
is empty — the accumulated content passes the whitespace strip-check
but normalizes to the empty string — refuting the unconditional
claim that every emitted Section has non-empty content. -/
theorem C2_counterexample :
    extract_content_sections bomSectionSoup = [⟨[], []⟩] := by decide

/-- C2 witness: the amended theorem at a concrete NUL/BOM-free document
(whose script content also demonstrably never reaches the output). -/
theorem C2_witness :
    treeClean plainBodySoup = true ∧
    (⟨docContentsTitle, "абв".data⟩ : DocSection) ∈ extract_content_sections plainBodySoup ∧
    (⟨docContentsTitle, "абв".data⟩ : DocSection).content ≠ [] :=
  ⟨by decide, by decide,
   (C2_sections_invariant plainBodySoup ⟨docContentsTitle, "абв".data⟩).2
     (by decide) (by decide)⟩

/-- C3 (amended): when the located content region has no heading-level
descendant, extract_content_sections skips the state machine and emits
exactly one section with the fixed generic title and the normalized
full region text if that text is non-empty, and no section at all when
it normalizes to empty. (The original claim of exactly one section in
all cases fails on a region whose text normalizes to empty.) -/
theorem C3_no_headings (soup mc : Node)
    (hmc : selectContent (stripNoise soup) = some mc)
    (hh : findHeadings mc = []) :
    extract_content_sections soup =
      (if clean_text (getTextSep mc) = [] then []
       else [⟨docContentsTitle, clean_text (getTextSep mc)⟩]) := by
  simp only [extract_content_sections, hmc]
  rw [hh]
  simp

/-- C3 counterexample: a document whose body fallback region exists and
has no headings and no text yields zero sections, not exactly one. -/
theorem C3_counterexample :
    (selectContent (stripNoise emptyRegionSoup)).isSome = true ∧
    ((selectContent (stripNoise emptyRegionSoup)).map
      (fun mc => (findHeadings mc).isEmpty)).getD false = true ∧
    extract_content_sections emptyRegionSoup = [] :=
  ⟨by decide, by decide, by decide⟩

/-- C3 witness: the amended theorem at a concrete heading-free region
with non-empty text produces exactly the one generic-titled section. -/
theorem C3_witness :
    extract_content_sections textRegionSoup =
      [⟨docContentsTitle, "Привет мир документ".data⟩] := by
  have h := C3_no_headings textRegionSoup textRegionBody rfl rfl
  rw [h]
  decide

/-- C10 witness: the active-precedence conjunct applied to a concrete
text consisting of the negated phrase. -/
theorem C10_witness :
    containsSub (lowerList "Документ не действует".data) "действует".data = true ∧
    status_of_text "Документ не действует".data = "Действует".data :=
  ⟨by decide, (C10_negated_phrase_active "Документ не действует".data).1 (by decide)⟩
